import Mathlib

/-!
Shallow embedding of the agnx/duragent agentic runtime, covering the
provider-neutral LLM data model, the OpenAI-style stream parser, the
Anthropic request adapter, the tool executor policy gate, the hook
pattern matcher, the process registry status machine and the agentic
loops.  Machine-level details (HTTP transport, async scheduling, file
I/O, JSON wire parsing) are abstracted as oracle parameters; everything
else is translated from the Rust source.
-/

-- ===========================================================================
-- Provider-neutral LLM data model
-- (crates/duragent/src/llm/types.rs and crates/agnx/src/llm are not in the
--  snapshot; the fields below are exactly those used by the code in src/.)
-- ===========================================================================

namespace LLM

/-- Token usage statistics. -/
structure Usage where
  prompt_tokens : Nat
  completion_tokens : Nat
  total_tokens : Nat
  deriving DecidableEq

/-- The function part of a tool call: name plus raw JSON-encoded arguments. -/
structure FunctionCall where
  name : String
  arguments : String
  deriving DecidableEq

/-- A tool call requested by the model. -/
structure ToolCall where
  id : String
  tool_type : String
  function : FunctionCall
  deriving DecidableEq

/-- Role of a message sender. -/
inductive Role where
  | system
  | user
  | assistant
  | tool
  deriving DecidableEq

/-- A provider-neutral chat message. -/
structure Message where
  role : Role
  content : Option String
  tool_calls : Option (List ToolCall)
  tool_call_id : Option String
  deriving DecidableEq

/-- Message::assistant_tool_calls — assistant message carrying only tool calls. -/
def Message.assistant_tool_calls (tool_calls : List ToolCall) : Message :=
  { role := .assistant, content := none, tool_calls := some tool_calls,
    tool_call_id := none }

/-- Message::tool_result — tool message carrying a result for a call id. -/
def Message.tool_result (tool_call_id : String) (content : String) : Message :=
  { role := .tool, content := some content, tool_calls := none,
    tool_call_id := some tool_call_id }

/-- Streaming events yielded by chat_stream. -/
inductive StreamEvent where
  | token (text : String)
  | toolCalls (calls : List ToolCall)
  | done (usage : Option Usage)
  | cancelled
  deriving DecidableEq

/-- Tool definition advertised to the model. -/
structure FunctionDefinition (J : Type) where
  name : String
  description : String
  parameters : Option J
  deriving DecidableEq

/-- OpenAI-shaped tool descriptor. -/
structure ToolDefinition (J : Type) where
  tool_type : String
  function : FunctionDefinition J
  deriving DecidableEq

/-- Provider-neutral chat request.  `J` stands in for serde_json::Value. -/
structure ChatRequest (J : Type) where
  model : String
  messages : List Message
  temperature : Option Float
  max_tokens : Option Nat
  tools : Option (List (ToolDefinition J))

end LLM

-- ===========================================================================
-- OpenAI-style stream parser (src/src/llm/openai.rs, StreamParser::poll_next)
-- ===========================================================================

namespace OpenAIRoot

open LLM

/-- Delta of a streamed choice: the parser deserializes only `content`. -/
structure StreamDelta where
  content : Option String
  deriving DecidableEq

/-- A streamed choice. -/
structure StreamChoice where
  delta : StreamDelta
  deriving DecidableEq

/-- A parsed SSE chunk: `choices` plus optional `usage`. -/
structure StreamChunk where
  choices : List StreamChoice
  usage : Option Usage
  deriving DecidableEq

/-- Outcome of handling one buffered line inside poll_next. -/
inductive LineOut where
  | done
  | token (text : String)
  | skip
  deriving DecidableEq

/-- Buffered text is modelled as List Char; byte indices of the source
coincide with char indices on valid UTF-8 for the operations used here. -/
def beginsWith : List Char → List Char → Bool
  | [], _ => true
  | _ :: _, [] => false
  | p :: ps, c :: cs => p == c && beginsWith ps cs

/-- str::trim (whitespace trimming on both ends). -/
def trimChars (l : List Char) : List Char :=
  ((l.dropWhile Char.isWhitespace).reverse.dropWhile Char.isWhitespace).reverse

/-- The buffer split at every '\n' (the final segment is the leftover that
has not yet seen its newline). -/
def splitOnNewline : List Char → List (List Char)
  | [] => [[]]
  | c :: rest =>
    if c = '\n' then [] :: splitOnNewline rest
    else
      match splitOnNewline rest with
      | [] => [[c]]
      | q :: qs => (c :: q) :: qs

/-- Handling of a single complete line in StreamParser::poll_next
(openai.rs lines 136-163).  `parseChunk` is the oracle standing in for
`serde_json::from_str::<StreamChunk>`. -/
def process_line (parseChunk : List Char → Option StreamChunk)
    (line : List Char) : LineOut :=
  let line := trimChars line
  if line.isEmpty then .skip
  else if beginsWith "data: ".toList line then
    let data := line.drop 6
    if data = "[DONE]".toList then .done
    else
      match parseChunk data with
      | some chunk =>
        match chunk.choices.head? with
        | some choice =>
          match choice.delta.content with
          | some content => if content ≠ "" then .token content else .skip
          | none => .skip
        | none => .skip
      | none => .skip
  else .skip

/-- Drive the parser over the complete lines of the byte stream.  On a
`[DONE]` line the parser emits `Done{usage: None}` and terminates; at the
end of the input with an empty leftover buffer it emits `Done{usage: None}`
(openai.rs line 181).  A non-empty newline-less leftover never produces
further events. -/
def run_lines (parseChunk : List Char → Option StreamChunk)
    (leftoverEmpty : Bool) : List (List Char) → List StreamEvent
  | [] => if leftoverEmpty then [.done none] else []
  | line :: rest =>
    match process_line parseChunk line with
    | .done => [.done none]
    | .token c => .token c :: run_lines parseChunk leftoverEmpty rest
    | .skip => run_lines parseChunk leftoverEmpty rest

/-- The event sequence produced by StreamParser for a given chunk sequence:
chunks are appended to the buffer and every '\n'-terminated line is
processed in order. -/
def run_sse_stream (parseChunk : List Char → Option StreamChunk)
    (chunks : List String) : List StreamEvent :=
  let segs := splitOnNewline (chunks.map String.toList).flatten
  run_lines parseChunk (segs.getLastD [] == []) segs.dropLast

/-- Is this event a ToolCalls event? -/
def isToolCallsEvent : StreamEvent → Bool
  | .toolCalls _ => true
  | _ => false

/-- Events the root parser can actually produce: tokens and plain Done. -/
def isTokenOrPlainDone : StreamEvent → Bool
  | .token _ => true
  | .done none => true
  | _ => false

/-- A concrete SSE data payload carrying an OpenAI tool-call fragment
(braces written as \x7b/\x7d). -/
def c2_fragment : String :=
  "\x7b\"choices\":[\x7b\"delta\":\x7b\"tool_calls\":[\x7b\"index\":0,\"id\":\"call_1\"\x7d]\x7d\x7d]\x7d"

/-- Serde-faithful parse oracle for the concrete fragment above: the unknown
field `tool_calls` is ignored and `delta.content` is absent. -/
def c2_parse : List Char → Option StreamChunk := fun s =>
  if s = c2_fragment.toList then some ⟨[⟨⟨none⟩⟩], none⟩ else none

/-- A byte stream carrying a tool-call fragment and terminating with
`data: [DONE]`. -/
def c2_chunks : List String :=
  ["data: " ++ c2_fragment ++ "\n", "data: [DONE]\n"]

end OpenAIRoot

-- ===========================================================================
-- Hook pattern matching (crates/duragent/src/tools/hooks.rs,
-- matches_hook_pattern, lines 376-413).  Strings are modelled as List Char;
-- byte-index arithmetic on valid UTF-8 coincides with char indices for
-- these operations.
-- ===========================================================================

namespace Hooks

/-- str::starts_with for char lists. -/
def startsWithL : List Char → List Char → Bool
  | [], _ => true
  | _ :: _, [] => false
  | p :: ps, c :: cs => p == c && startsWithL ps cs

/-- str::ends_with for char lists. -/
def endsWithL (p s : List Char) : Bool :=
  startsWithL p.reverse s.reverse

/-- str::find for char lists: index of the leftmost occurrence. -/
def findSub (needle : List Char) : List Char → Option Nat
  | [] => if needle.isEmpty then some 0 else none
  | c :: t =>
    if startsWithL needle (c :: t) then some 0
    else (findSub needle t).map (· + 1)

/-- str::split('*'): the list of literal chunks, empties included. -/
def splitOnStar : List Char → List (List Char)
  | [] => [[]]
  | c :: rest =>
    if c = '*' then [] :: splitOnStar rest
    else
      match splitOnStar rest with
      | [] => [[c]]
      | q :: qs => (c :: q) :: qs

/-- slice::last of the split chunks (empty for an empty list). -/
def lastPart : List (List Char) → List Char
  | [] => []
  | [p] => p
  | _ :: q :: qs => lastPart (q :: qs)

/-- The loop over parts[1..len-1] (hooks.rs lines 402-410): each non-empty
middle chunk must be found, leftmost, in the not-yet-consumed remainder. -/
def matchMiddleParts : List (List Char) → List Char → Bool
  | [], _ => true
  | p :: ps, rem =>
    if p.isEmpty then matchMiddleParts ps rem
    else
      match findSub p rem with
      | some idx => matchMiddleParts ps (rem.drop (idx + p.length))
      | none => false

/-- matches_hook_pattern (hooks.rs lines 376-413). -/
def matches_hook_pattern (pattern invocation : List Char) : Bool :=
  if !(pattern.contains '*') then pattern == invocation
  else
    let parts := splitOnStar pattern
    let first := parts.headD []
    if !first.isEmpty && !(startsWithL first invocation) then false
    else
      let last := lastPart parts
      if !last.isEmpty && !(endsWithL last invocation) then false
      else matchMiddleParts ((parts.drop 1).dropLast) (invocation.drop first.length)

/-- The language of a glob pattern as the spec words it: each `*` denotes
any (possibly empty) substring and all other characters match verbatim. -/
inductive GlobLang : List Char → List Char → Prop where
  | nil : GlobLang [] []
  | star {p : List Char} (s : List Char) {r : List Char} :
      GlobLang p r → GlobLang ('*' :: p) (s ++ r)
  | lit {c : Char} {p s : List Char} :
      c ≠ '*' → GlobLang p s → GlobLang (c :: p) (c :: s)

/-- Decomposition of a string along the literal chunks of a pattern:
`GlobParts [p0, …, pn] s` holds when `s = p0 ++ g1 ++ p1 ++ … ++ gn ++ pn`. -/
inductive GlobParts : List (List Char) → List Char → Prop where
  | single {p : List Char} : GlobParts [p] p
  | cons {p : List Char} {ps : List (List Char)} (g : List Char) {s : List Char} :
      GlobParts ps s → GlobParts (p :: ps) (p ++ g ++ s)

/-- The chunks of `ps` occur, in order and non-overlapping, inside `s`
(with arbitrary gaps before, between and after). -/
inductive InOrder : List (List Char) → List Char → Prop where
  | nil (s : List Char) : InOrder [] s
  | cons {p : List Char} {ps : List (List Char)} (g : List Char) {s : List Char} :
      InOrder ps s → InOrder (p :: ps) (g ++ p ++ s)

end Hooks

-- ===========================================================================
-- Anthropic request adapter (crates/duragent/src/llm/anthropic.rs).
-- `J` stands in for serde_json::Value, with `parseJson` the oracle for
-- serde_json::from_str and `jobj` for Value::Object(Default::default()).
-- ===========================================================================

namespace Anthropic

open LLM

/-- Content block for Anthropic messages. -/
inductive ContentBlock (J : Type) where
  | text (text : String)
  | toolUse (id name : String) (input : J)
  | toolResult (tool_use_id : String) (content : String)
  deriving DecidableEq

/-- Message of an Anthropic request: plain text or content blocks. -/
inductive RequestMessage (J : Type) where
  | textMsg (role content : String)
  | contentBlocks (role : String) (content : List (ContentBlock J))
  deriving DecidableEq

/-- Anthropic tool definition format. -/
structure AnthropicTool (J : Type) where
  name : String
  description : String
  input_schema : Option J
  deriving DecidableEq

/-- Rendering of the `system` field: an array of cache-marked text blocks
for OAuth, a plain joined string for API-key auth. -/
inductive SystemField where
  | oauthBlocks (texts : List String)
  | plain (text : String)
  deriving DecidableEq

/-- Anthropic wire request. -/
structure Request (J : Type) where
  model : String
  max_tokens : Nat
  system : Option SystemField
  messages : List (RequestMessage J)
  temperature : Option Float
  tools : Option (List (AnthropicTool J))
  stream : Option Bool

/-- Anthropic canonical tool names (anthropic.rs lines 230-248). -/
def ANTHROPIC_TOOLS : List String :=
  ["Read", "Write", "Edit", "Bash", "Grep", "Glob", "AskUserQuestion",
   "EnterPlanMode", "ExitPlanMode", "KillShell", "NotebookEdit", "Skill",
   "Task", "TaskOutput", "TodoWrite", "WebFetch", "WebSearch"]

/-- Map a tool name to the canonical casing if it matches (case-insensitive). -/
def to_canonical_name (name : String) : String :=
  let lower := name.toLower
  match ANTHROPIC_TOOLS.find? (fun cc => cc.toLower == lower) with
  | some cc => cc
  | none => name

/-- Convert OpenAI-style tool definitions to Anthropic format. -/
def convert_tools {J : Type} (tools : Option (List (ToolDefinition J)))
    (oauth : Bool) : Option (List (AnthropicTool J)) :=
  tools.map fun ts =>
    ts.map fun t =>
      { name := if oauth then to_canonical_name t.function.name
                else t.function.name,
        description := t.function.description,
        input_schema := t.function.parameters }

/-- Identity string required by Anthropic's OAuth endpoint. -/
def ANTHROPIC_IDENTITY : String :=
  "You are Claude Code, Anthropic's official CLI for Claude."

/-- Role string of a request message (anthropic.rs message_role). -/
def message_role {J : Type} : RequestMessage J → String
  | .textMsg role _ => role
  | .contentBlocks role _ => role

/-- anthropic.rs is_plain_text_message: non-empty plain text. -/
def plainTextMsg {J : Type} : RequestMessage J → Bool
  | .textMsg _ content => !(content == "")
  | .contentBlocks _ _ => false

/-- Merge `source` into `target` (same role); converts Text to ContentBlocks
as needed (anthropic.rs merge_into, lines 441-481). -/
def merge_into {J : Type} (target source : RequestMessage J)
    (insert_separator : Bool) : RequestMessage J :=
  let role := message_role target
  let target_blocks : List (ContentBlock J) :=
    match target with
    | .contentBlocks _ content => content
    | .textMsg _ content =>
      if content == "" then [] else [ContentBlock.text content]
  match source with
  | .textMsg _ content =>
    if !(content == "") then
      let blocks :=
        if insert_separator && !(target_blocks.isEmpty) then
          target_blocks ++ [ContentBlock.text "\n\n"]
        else target_blocks
      .contentBlocks role (blocks ++ [ContentBlock.text content])
    else .contentBlocks role target_blocks
  | .contentBlocks _ content => .contentBlocks role (target_blocks ++ content)

/-- One step of the merging pass: push, or merge into the last element. -/
def mergeStep {J : Type} (merged : List (RequestMessage J))
    (msg : RequestMessage J) : List (RequestMessage J) :=
  match merged.getLast? with
  | some last =>
    if message_role last == message_role msg then
      merged.dropLast ++
        [merge_into last msg (plainTextMsg last && plainTextMsg msg)]
    else merged ++ [msg]
  | none => merged ++ [msg]

/-- Merge consecutive messages with the same role into single messages
(anthropic.rs merge_consecutive_messages, lines 406-425). -/
def merge_consecutive_messages {J : Type} (messages : List (RequestMessage J)) :
    List (RequestMessage J) :=
  if messages.length < 2 then messages
  else messages.foldl mergeStep []

/-- Contribution of one neutral message to the request (one arm of the
message-building fold of to_request, anthropic.rs lines 285-360): the
system part it contributes, if any, and the request messages it prepends. -/
def buildStep {J : Type} (parseJson : String → Option J) (jobj : J)
    (msg : Message) : List String × List (RequestMessage J) :=
  match msg.role with
  | .system =>
    match msg.content with
    | some content =>
      if content ≠ "" then ([content], []) else ([], [])
    | none => ([], [])
  | .user =>
    ([], [.textMsg "user" (msg.content.getD "")])
  | .assistant =>
    match msg.tool_calls with
    | some tool_calls =>
      let textBlocks : List (ContentBlock J) :=
        match msg.content with
        | some content =>
          if content ≠ "" then [ContentBlock.text content] else []
        | none => []
      let useBlocks : List (ContentBlock J) := tool_calls.map fun tc =>
        let input : J :=
          if tc.function.arguments.trim == "" then jobj
          else (parseJson tc.function.arguments).getD jobj
        ContentBlock.toolUse tc.id tc.function.name input
      ([], [.contentBlocks "assistant" (textBlocks ++ useBlocks)])
    | none =>
      ([], [.textMsg "assistant" (msg.content.getD "")])
  | .tool =>
    match msg.tool_call_id with
    | some tool_call_id =>
      ([], [.contentBlocks "user"
        [ContentBlock.toolResult tool_call_id (msg.content.getD "")]])
    | none => ([], [])

/-- The message-building fold of to_request (anthropic.rs lines 285-360):
returns the collected system parts and the pre-merge message list, in
traversal order. -/
def buildMessages {J : Type} (parseJson : String → Option J) (jobj : J) :
    List Message → List String × List (RequestMessage J)
  | [] => ([], [])
  | msg :: rest =>
    let step := buildStep parseJson jobj msg
    let acc := buildMessages parseJson jobj rest
    (step.1 ++ acc.1, step.2 ++ acc.2)

/-- Build the system field (anthropic.rs lines 370-389). -/
def buildSystem (oauth : Bool) (system_parts : List String) :
    Option SystemField :=
  if oauth then
    some (.oauthBlocks (ANTHROPIC_IDENTITY :: system_parts))
  else if system_parts.isEmpty then none
  else some (.plain (String.intercalate "\n\n" system_parts))

/-- to_request (anthropic.rs lines 281-400). -/
def to_request {J : Type} (parseJson : String → Option J) (jobj : J)
    (request : ChatRequest J) (stream : Option Bool) (oauth : Bool) :
    Request J :=
  let built := buildMessages parseJson jobj request.messages
  { model := request.model,
    max_tokens := request.max_tokens.getD 4096,
    system := buildSystem oauth built.1,
    messages := merge_consecutive_messages built.2,
    temperature := request.temperature,
    tools := convert_tools request.tools oauth,
    stream := stream }

end Anthropic

-- ===========================================================================
-- Tool executor policy gate (crates/agnx/src/tools/executor.rs).
-- ===========================================================================

namespace Executor

open LLM

/-- Result of a tool execution. -/
structure ToolResult where
  success : Bool
  content : String
  deriving DecidableEq

/-- Policy decision for a tool invocation. -/
inductive PolicyDecision where
  | allow
  | ask
  | deny
  deriving DecidableEq

/-- Tool type used for policy lookups. -/
inductive ToolType where
  | bash
  | builtin
  deriving DecidableEq

/-- Tool configuration variants. -/
inductive ToolConfig where
  | builtin (name : String)
  | cli (name command : String) (readme description : Option String)
  deriving DecidableEq

/-- Tool execution errors, as constructed by executor.rs. -/
inductive ToolError where
  | notFound (name : String)
  | policyDenied (invocation : String)
  | approvalRequired (call_id command : String)
  | executionFailed (message : String)
  deriving DecidableEq

/-- Display of a tool error (thiserror messages). -/
def ToolError.display : ToolError → String
  | .notFound name => "tool not found: " ++ name
  | .policyDenied invocation => "policy denied: " ++ invocation
  | .approvalRequired _ command => "approval required: " ++ command
  | .executionFailed message => "tool execution failed: " ++ message

/-- Extract the command string from bash tool arguments (executor.rs
lines 309-318).  `parseCommand` is the oracle for
`serde_json::from_str::<BashArgs>`: it returns the `command` field exactly
when the arguments parse as a JSON object with a string `command` field. -/
def extract_bash_command (parseCommand : String → Option String)
    (arguments : String) : String :=
  match parseCommand arguments with
  | some command => command
  | none => arguments

/-- Tool type and invocation string for the policy check (executor.rs
lines 134-142). -/
def invocation_of (parseCommand : String → Option String)
    (config : ToolConfig) (tc : ToolCall) : ToolType × String :=
  match config with
  | .builtin name =>
    if name == "bash" then
      (.bash, extract_bash_command parseCommand tc.function.arguments)
    else (.builtin, name)
  | .cli name _ _ _ => (.builtin, name)

/-- HashMap lookup of the tool registry, modelled as an association list. -/
def lookupTool (tools : List (String × ToolConfig)) (name : String) :
    Option ToolConfig :=
  (tools.find? (fun p => p.1 == name)).map (·.2)

/-- Decidable equality for Except values, used by concrete witnesses. -/
instance {ε α : Type} [DecidableEq ε] [DecidableEq α] :
    DecidableEq (Except ε α) := fun a b =>
  match a, b with
  | .ok x, .ok y =>
    if h : x = y then .isTrue (by rw [h]) else .isFalse (by simp [h])
  | .ok _, .error _ => .isFalse (by simp)
  | .error _, .ok _ => .isFalse (by simp)
  | .error x, .error y =>
    if h : x = y then .isTrue (by rw [h]) else .isFalse (by simp [h])

/-- Outcome of ToolExecutor::execute: an error returned before dispatch, or
a dispatch of the tool with the checked tool type and invocation. -/
inductive ExecOutcome where
  | err (e : ToolError)
  | ran (tool_type : ToolType) (invocation : String)
      (result : Except ToolError ToolResult)
  deriving DecidableEq

/-- ToolExecutor::execute (executor.rs lines 126-162): name lookup, policy
check, then dispatch.  `runTool` is the oracle for execute_tool. -/
def execute (tools : List (String × ToolConfig))
    (check : ToolType → String → PolicyDecision)
    (parseCommand : String → Option String)
    (runTool : ToolCall → ToolConfig → Except ToolError ToolResult)
    (tc : ToolCall) : ExecOutcome :=
  match lookupTool tools tc.function.name with
  | none => .err (.notFound tc.function.name)
  | some config =>
    let ti := invocation_of parseCommand config tc
    match check ti.1 ti.2 with
    | .deny => .err (.policyDenied ti.2)
    | .ask => .err (.approvalRequired tc.id ti.2)
    | .allow => .ran ti.1 ti.2 (runTool tc config)

end Executor

-- ===========================================================================
-- Process registry status machine (crates/duragent/src/process/registry.rs).
-- ===========================================================================

namespace Registry

/-- Process status (process module; variant set fixed by the registry tests). -/
inductive ProcessStatus where
  | running
  | completed (exit_code : Int)
  | failed (exit_code : Int)
  | timed_out
  | killed
  | lost
  deriving DecidableEq

/-- Whether a status is terminal: everything except `running`
(asserted by registry.rs process_status_is_terminal). -/
def ProcessStatus.is_terminal : ProcessStatus → Bool
  | .running => false
  | _ => true

/-- Persistent metadata of a background process.  Timestamps are Nats. -/
structure ProcessMeta where
  handle : String
  command : String
  label : Option String
  workdir : Option String
  pid : Option Nat
  session_id : String
  agent : String
  tmux_session : Option String
  status : ProcessStatus
  log_path : String
  spawned_at : Nat
  completed_at : Option Nat
  timeout_seconds : Nat
  gateway : Option String
  chat_id : Option String
  deriving DecidableEq

/-- In-memory registry entry; channel senders are modelled by presence. -/
structure ProcessEntry where
  meta : ProcessMeta
  cancel_tx : Option Unit
  stdin : Option Unit
  watcher_cancel_tx : Option Unit
  deriving DecidableEq

/-- Process registry errors relevant to the status machine. -/
inductive ProcessError where
  | notFound (handle : String)
  | wrongSession
  | notRunning
  deriving DecidableEq

/-- update_status (registry.rs lines 1010-1023): skip if already finalized,
otherwise set the status, stamp completed_at and drop the cancel sender. -/
def update_status (entry : ProcessEntry) (status : ProcessStatus)
    (now : Nat) : ProcessEntry :=
  if entry.meta.status.is_terminal then entry
  else
    { entry with
      meta := { entry.meta with status := status, completed_at := some now },
      cancel_tx := none }

/-- mark_completed (registry.rs line 674). -/
def mark_completed (entry : ProcessEntry) (exit_code : Int) (now : Nat) :
    ProcessEntry :=
  update_status entry (.completed exit_code) now

/-- mark_failed (registry.rs line 679). -/
def mark_failed (entry : ProcessEntry) (exit_code : Int) (now : Nat) :
    ProcessEntry :=
  update_status entry (.failed exit_code) now

/-- mark_timed_out (registry.rs line 684). -/
def mark_timed_out (entry : ProcessEntry) (now : Nat) : ProcessEntry :=
  update_status entry .timed_out now

/-- mark_killed (registry.rs line 688). -/
def mark_killed (entry : ProcessEntry) (now : Nat) : ProcessEntry :=
  update_status entry .killed now

/-- mark_lost (registry.rs line 692). -/
def mark_lost (entry : ProcessEntry) (now : Nat) : ProcessEntry :=
  update_status entry .lost now

/-- kill (registry.rs lines 484-517): validate, set Killed and completed_at,
take both cancel senders; the senders are signalled outside the lock. -/
def kill (entry : ProcessEntry) (session_id : String) (now : Nat) :
    Except ProcessError (ProcessEntry × Option Unit × Option Unit) :=
  if entry.meta.session_id ≠ session_id then .error .wrongSession
  else if entry.meta.status.is_terminal then .error .notRunning
  else
    .ok
      ({ entry with
         meta := { entry.meta with status := .killed, completed_at := some now },
         cancel_tx := none,
         watcher_cancel_tx := none },
       entry.cancel_tx, entry.watcher_cancel_tx)

end Registry

-- ===========================================================================
-- agnx agentic loop (crates/agnx/src/session/agentic.rs).
-- ===========================================================================

namespace AgnxLoop

open LLM Executor

/-- Session event payloads recorded by the loop; `J` stands in for the
serde_json::Value stored in ToolCall events. -/
inductive SessionEventPayload (J : Type) where
  | toolCall (call_id tool_name : String) (arguments : J)
  | toolResult (call_id : String) (success : Bool) (content : String)
  deriving DecidableEq

/-- Accumulator of the stream-consumption while-loop
(agentic.rs lines 96-116). -/
structure StreamAccum where
  content : String
  tool_calls : List ToolCall
  usage : Option Usage
  deriving DecidableEq

/-- Consume the LLM stream: tokens append to content, a ToolCalls event
replaces the tool-call list, Done records usage, Cancelled breaks. -/
def consumeStream : List StreamEvent → StreamAccum → StreamAccum
  | [], acc => acc
  | .token t :: rest, acc =>
    consumeStream rest { acc with content := acc.content ++ t }
  | .toolCalls calls :: rest, acc =>
    consumeStream rest { acc with tool_calls := calls }
  | .done u :: rest, acc => consumeStream rest { acc with usage := u }
  | .cancelled :: _, acc => acc

/-- Accumulate usage (agentic.rs lines 119-128). -/
def mergeUsage (total : Option Usage) : Option Usage → Option Usage
  | some u =>
    some (match total with
      | some existing =>
        { prompt_tokens := existing.prompt_tokens + u.prompt_tokens,
          completion_tokens := existing.completion_tokens + u.completion_tokens,
          total_tokens := existing.total_tokens + u.total_tokens }
      | none => u)
  | none => total

/-- Convert an executor outcome into the ToolResult fed back to the model
(agentic.rs lines 187-196): errors become failed results. -/
def resultOf : Except ToolError ToolResult → ToolResult
  | .ok r => r
  | .error e => { success := false,
                  content := "Tool execution failed: " ++ e.display }

/-- The per-iteration result-processing loop (agentic.rs lines 165-219):
for each (call, result) pair, in the order of the original tool-call list,
record a ToolCall event, record a ToolResult event and append a tool-result
message.  `results` is zipped against the calls exactly as in the source;
futures::future::join_all returns results in the order of the input
futures, so the i-th result belongs to the i-th call no matter in which
order the parallel executions finished. -/
def processResults {J : Type} (parseJson : String → Option J) (jnull : J) :
    List ToolCall → List (Except ToolError ToolResult) →
    List (SessionEventPayload J) × List Message
  | [], _ => ([], [])
  | _, [] => ([], [])
  | tc :: tcs, r :: rs =>
    let rest := processResults parseJson jnull tcs rs
    let arguments := (parseJson tc.function.arguments).getD jnull
    let result := resultOf r
    (.toolCall tc.id tc.function.name arguments ::
       .toolResult tc.id result.success result.content :: rest.1,
     Message.tool_result tc.id result.content :: rest.2)

/-- The assistant message appended before tool dispatch
(agentic.rs lines 144-154). -/
def assistant_of (acc : StreamAccum) : Message :=
  if acc.content == "" then Message.assistant_tool_calls acc.tool_calls
  else
    { role := .assistant, content := some acc.content,
      tool_calls := some acc.tool_calls, tool_call_id := none }

/-- Result of running the agentic loop. -/
structure AgenticResult where
  content : String
  usage : Option Usage
  iterations : Nat
  tool_calls_made : Nat
  deriving DecidableEq

/-- Loop outcome: a final result or the MaxIterationsExceeded error. -/
inductive AgenticOutcome where
  | complete (result : AgenticResult)
  | maxIterationsExceeded (n : Nat)
  deriving DecidableEq

/-- Observable trace of one loop run. -/
structure LoopTrace (J : Type) where
  outcome : AgenticOutcome
  events : List (SessionEventPayload J)
  messages : List Message
  llm_calls : Nat
  deriving DecidableEq

/-- The loop body of run_agentic_loop (agentic.rs lines 70-222), with
`remaining = max_iterations - iterations` as structural fuel: entering an
iteration with no fuel is exactly `iterations > max_iterations`.
`chat_stream` maps the current conversation to the provider's event stream
and `exec` is the tool executor. -/
def loopGo {J : Type} (parseJson : String → Option J) (jnull : J)
    (chat_stream : List Message → List StreamEvent)
    (exec : ToolCall → Except ToolError ToolResult)
    (max_iterations : Nat) :
    Nat → Nat → Nat → List Message → Option Usage →
    List (SessionEventPayload J) → Nat → LoopTrace J
  | 0, _, _, messages, _, events, llm_calls =>
    { outcome := .maxIterationsExceeded max_iterations,
      events := events, messages := messages, llm_calls := llm_calls }
  | remaining + 1, iterations, tool_calls_made, messages, total_usage,
      events, llm_calls =>
    let acc := consumeStream (chat_stream messages) ⟨"", [], none⟩
    let total_usage := mergeUsage total_usage acc.usage
    if acc.tool_calls.isEmpty then
      { outcome := .complete
          { content := acc.content, usage := total_usage,
            iterations := iterations + 1,
            tool_calls_made := tool_calls_made },
        events := events, messages := messages, llm_calls := llm_calls + 1 }
    else
      let processed :=
        processResults parseJson jnull acc.tool_calls
          (acc.tool_calls.map exec)
      loopGo parseJson jnull chat_stream exec max_iterations
        remaining (iterations + 1)
        (tool_calls_made + acc.tool_calls.length)
        (messages ++ assistant_of acc :: processed.2)
        total_usage (events ++ processed.1) (llm_calls + 1)

/-- run_agentic_loop (agentic.rs lines 53-223). -/
def run_agentic_loop {J : Type} (parseJson : String → Option J) (jnull : J)
    (chat_stream : List Message → List StreamEvent)
    (exec : ToolCall → Except ToolError ToolResult)
    (max_iterations : Nat) (initial_messages : List Message) : LoopTrace J :=
  loopGo parseJson jnull chat_stream exec max_iterations
    max_iterations 0 0 initial_messages none [] 0

/-- Call id of a ToolCall event. -/
def evToolCallId {J : Type} : SessionEventPayload J → Option String
  | .toolCall call_id _ _ => some call_id
  | .toolResult _ _ _ => none

/-- Call id of a ToolResult event. -/
def evToolResultId {J : Type} : SessionEventPayload J → Option String
  | .toolResult call_id _ _ => some call_id
  | .toolCall _ _ _ => none

end AgnxLoop

-- ===========================================================================
-- Duragent agentic loop, approval path.
-- ===========================================================================

namespace DurLoop

open LLM Executor AgnxLoop

/-- Pending-approval record persisted on suspension. -/
structure PendingApproval where
  call_id : String
  command : String
  deriving DecidableEq

/-- Duragent tool errors relevant to the loop: the ApprovalRequired signal,
and everything else (converted into failed tool results). -/
inductive DToolError where
  | approvalRequired (call_id command : String)
  | other (message : String)
  deriving DecidableEq

/-- Display of a duragent tool error. -/
def DToolError.display : DToolError → String
  | .approvalRequired _ command => "approval required: " ++ command
  | .other message => message

/-- Is this executor outcome the ApprovalRequired signal? -/
def isApprovalErr : Except DToolError ToolResult → Bool
  | .error (.approvalRequired _ _) => true
  | _ => false

/-- Errors fed back to the model as failed tool results. -/
def dResultOf : Except DToolError ToolResult → ToolResult
  | .ok r => r
  | .error e => { success := false,
                  content := "Tool execution failed: " ++ e.display }

/-- Session-visible state the loop writes through the session handle. -/
structure DSessionState (J : Type) where
  pending_approval : Option PendingApproval
  events : List (SessionEventPayload J)
  messages : List Message
  deriving DecidableEq

/-- One LLM response after stream consumption. -/
structure DResponse where
  content : String
  tool_calls : List ToolCall
  usage : Option Usage
  deriving DecidableEq

/-- Outcome of processing one tool round. -/
inductive RoundOutcome where
  | continued
  | awaitingApproval (pending : PendingApproval) (contentSoFar : String)
  deriving DecidableEq

/-- Result of the duragent loop. -/
inductive DLoopResult where
  | complete (content : String)
  | awaitingApproval (pending : PendingApproval) (contentSoFar : String)
  | maxIterationsExceeded
  deriving DecidableEq

/-- Modelled from the spec: the tool-round body of duragent's
run_agentic_loop (crates/duragent/src/session, not in the snapshot; its
caller run_callback in registry.rs lines 1256-1316 is).  Per spec section
4.5: for each (call, result) in zip, record a ToolCall event and a
ToolResult event; if the executor returned ApprovalRequired, persist a
pending approval and return AwaitingApproval with partial_content equal to
the assistant content of this iteration (`contentSoFar` here); otherwise
append a tool-result message. -/
def dur_process_round {J : Type} (parseJson : String → Option J) (jnull : J)
    (content : String) :
    List ToolCall → List (Except DToolError ToolResult) →
    DSessionState J → RoundOutcome × DSessionState J
  | [], _, st => (.continued, st)
  | _, [], st => (.continued, st)
  | tc :: tcs, r :: rs, st =>
    let arguments := (parseJson tc.function.arguments).getD jnull
    let result := dResultOf r
    let st :=
      { st with
        events := st.events ++
          [SessionEventPayload.toolCall tc.id tc.function.name arguments,
           SessionEventPayload.toolResult tc.id result.success result.content] }
    match r with
    | .error (.approvalRequired call_id command) =>
      let pending : PendingApproval := ⟨call_id, command⟩
      (.awaitingApproval pending content,
       { st with pending_approval := some pending })
    | _ =>
      dur_process_round parseJson jnull content tcs rs
        { st with
          messages := st.messages ++ [Message.tool_result tc.id result.content] }

/-- The assistant message carrying the iteration's content and tool calls
(spec section 4.5, "append an assistant message carrying (content if
non-empty) and pending_tool_calls"). -/
def dur_assistant (resp : DResponse) : Message :=
  if resp.content == "" then Message.assistant_tool_calls resp.tool_calls
  else
    { role := .assistant, content := some resp.content,
      tool_calls := some resp.tool_calls, tool_call_id := none }

/-- Modelled from the spec: duragent's run_agentic_loop (spec section 4.5),
restricted to the control flow the approval claim needs: call the LLM, stop
when no tools are requested, otherwise append the assistant message, run the
round, and either suspend on approval or continue with the next iteration. -/
def dur_run {J : Type} (parseJson : String → Option J) (jnull : J)
    (step : List Message → DResponse)
    (exec : ToolCall → Except DToolError ToolResult) :
    Nat → DSessionState J → DLoopResult × DSessionState J
  | 0, st => (.maxIterationsExceeded, st)
  | fuel + 1, st =>
    let resp := step st.messages
    if resp.tool_calls.isEmpty then (.complete resp.content, st)
    else
      match dur_process_round parseJson jnull resp.content resp.tool_calls
          (resp.tool_calls.map exec)
          { st with messages := st.messages ++ [dur_assistant resp] } with
      | (.awaitingApproval pending c, st) => (.awaitingApproval pending c, st)
      | (.continued, st) => dur_run parseJson jnull step exec fuel st

end DurLoop


-- ===========================================================================
-- Concrete fixtures used by witnesses and counterexamples.
-- ===========================================================================

namespace Fixtures

open LLM Executor Registry AgnxLoop DurLoop

/-- A bash tool call with well-formed JSON arguments. -/
def c6_call : ToolCall :=
  ⟨"call_1", "function", ⟨"bash", "\x7b\"command\": \"ls\"\x7d"⟩⟩

/-- Registry with the builtin bash tool. -/
def c6_tools : List (String × ToolConfig) := [("bash", .builtin "bash")]

/-- Policy oracle answering Ask for everything. -/
def c6_check : ToolType → String → PolicyDecision := fun _ _ => .ask

/-- Serde oracle extracting the command field of c6_call's arguments. -/
def c6_parse : String → Option String := fun s =>
  if s = c6_call.function.arguments then some "ls" else none

/-- Tool-run oracle. -/
def c6_run : ToolCall → ToolConfig → Except ToolError ToolResult :=
  fun _ _ => .ok ⟨true, "ok"⟩

/-- A bash tool call whose arguments are not valid JSON. -/
def c10_call : ToolCall := ⟨"call_2", "function", ⟨"bash", "ls -la /tmp"⟩⟩

/-- Serde oracle that fails on every input (no JSON object with a string
command field). -/
def c10_parse : String → Option String := fun _ => none

/-- A running process entry. -/
def c7_entry : ProcessEntry :=
  { meta :=
      { handle := "01hqxyz123abc", command := "sleep 5", label := none,
        workdir := none, pid := some 42, session_id := "sess-1",
        agent := "alpha", tmux_session := none, status := .running,
        log_path := "/data/processes/01hqxyz123abc.log", spawned_at := 100,
        completed_at := none, timeout_seconds := 1800, gateway := none,
        chat_id := none },
    cancel_tx := some (), stdin := none, watcher_cancel_tx := some () }

/-- A tool call requested by the model in the loop fixtures. -/
def c5_call : ToolCall := ⟨"call_3", "function", ⟨"bash", "\x7b\x7d"⟩⟩

/-- A provider that requests one tool call on every iteration. -/
def c5_stream : List Message → List StreamEvent :=
  fun _ => [.toolCalls [c5_call], .done none]

/-- An executor that always succeeds. -/
def c5_exec : ToolCall → Except ToolError Executor.ToolResult :=
  fun _ => .ok ⟨true, "x"⟩

/-- A tool call that will require approval. -/
def c1_call : ToolCall := ⟨"call_9", "function", ⟨"bash", "\x7b\x7d"⟩⟩

/-- An LLM step answering with content and one tool call. -/
def c1_step : List Message → DResponse :=
  fun _ => ⟨"Running the command...", [c1_call], none⟩

/-- An executor that raises the ApprovalRequired signal. -/
def c1_exec : ToolCall → Except DToolError Executor.ToolResult :=
  fun _ => .error (.approvalRequired "call_9" "rm /tmp/x")

/-- Initial session state for the approval witness. -/
def c1_state : DSessionState Unit := ⟨none, [], []⟩

end Fixtures

-- ===========================================================================
-- Theorems.  Anthropic adapter: role alternation and merge idempotence.
-- ===========================================================================

namespace Anthropic

/-- Adjacent request messages with distinct roles. -/
def RoleNe {J : Type} (a b : RequestMessage J) : Prop :=
  message_role a ≠ message_role b

theorem message_role_merge_into {J : Type} (t s : RequestMessage J) (b : Bool) :
    message_role (merge_into t s b) = message_role t := by
  cases s <;> simp only [merge_into] <;> (try split_ifs) <;> rfl

theorem mergeStep_same_role {J : Type} {acc : List (RequestMessage J)}
    {last : RequestMessage J} (m : RequestMessage J)
    (hl : acc.getLast? = some last)
    (hr : (message_role last == message_role m) = true) :
    mergeStep acc m =
      acc.dropLast ++ [merge_into last m (plainTextMsg last && plainTextMsg m)] := by
  simp [mergeStep, hl, hr]

theorem mergeStep_push {J : Type} {acc : List (RequestMessage J)}
    {last : RequestMessage J} (m : RequestMessage J)
    (hl : acc.getLast? = some last)
    (hr : (message_role last == message_role m) = false) :
    mergeStep acc m = acc ++ [m] := by
  simp [mergeStep, hl, hr]

theorem chain'_mergeStep {J : Type} (acc : List (RequestMessage J))
    (m : RequestMessage J) (h : List.Chain' RoleNe acc) :
    List.Chain' RoleNe (mergeStep acc m) := by
  cases hl : acc.getLast? with
  | none =>
    have hacc : acc = [] := List.getLast?_eq_none_iff.mp hl
    subst hacc
    simp [mergeStep]
  | some last =>
    have hacc : acc.dropLast ++ [last] = acc :=
      List.dropLast_append_getLast? last hl
    cases hr : (message_role last == message_role m) with
    | true =>
      rw [mergeStep_same_role m hl hr]
      rw [← hacc] at h
      rw [List.chain'_append] at h ⊢
      refine ⟨h.1, List.chain'_singleton _, ?_⟩
      intro x hx y hy
      simp only [List.head?_cons, Option.mem_def, Option.some.injEq] at hy
      subst hy
      have := h.2.2 x hx last (by simp)
      simpa [RoleNe, message_role_merge_into] using this
    | false =>
      rw [mergeStep_push m hl hr]
      rw [List.chain'_append]
      refine ⟨h, List.chain'_singleton _, ?_⟩
      intro x hx y hy
      rw [hl] at hx
      simp only [Option.mem_def, Option.some.injEq] at hx
      subst hx
      simp only [List.head?_cons, Option.mem_def, Option.some.injEq] at hy
      subst hy
      simpa [RoleNe] using beq_eq_false_iff_ne.mp hr

theorem chain'_foldl_mergeStep {J : Type} (l : List (RequestMessage J))
    (acc : List (RequestMessage J)) (h : List.Chain' RoleNe acc) :
    List.Chain' RoleNe (l.foldl mergeStep acc) := by
  induction l generalizing acc with
  | nil => exact h
  | cons m rest ih => exact ih _ (chain'_mergeStep acc m h)

theorem chain'_merge_consecutive_messages {J : Type}
    (messages : List (RequestMessage J)) :
    List.Chain' RoleNe (merge_consecutive_messages messages) := by
  unfold merge_consecutive_messages
  split
  · rename_i hlen
    match messages, hlen with
    | [], _ => simp
    | [m], _ => simp
  · exact chain'_foldl_mergeStep messages [] (by simp)

theorem foldl_mergeStep_of_chain' {J : Type} (l : List (RequestMessage J))
    (acc : List (RequestMessage J)) (h : List.Chain' RoleNe (acc ++ l)) :
    l.foldl mergeStep acc = acc ++ l := by
  induction l generalizing acc with
  | nil => simp
  | cons m rest ih =>
    have hstep : mergeStep acc m = acc ++ [m] := by
      cases hl : acc.getLast? with
      | none => simp [mergeStep, hl]
      | some last =>
        have hne : RoleNe last m := by
          rw [List.chain'_append] at h
          exact h.2.2 last (by simpa [Option.mem_def] using hl) m (by simp)
        exact mergeStep_push m hl (beq_eq_false_iff_ne.mpr hne)
    rw [List.foldl_cons, hstep, ih (acc ++ [m]) (by simpa using h)]
    simp

theorem merge_of_chain' {J : Type} (l : List (RequestMessage J))
    (h : List.Chain' RoleNe l) : merge_consecutive_messages l = l := by
  unfold merge_consecutive_messages
  split
  · rfl
  · simpa using foldl_mergeStep_of_chain' l [] (by simpa using h)

theorem mem_mergeStep {J : Type} {Q : String → Prop}
    (acc : List (RequestMessage J)) (m : RequestMessage J)
    (hacc : ∀ x ∈ acc, Q (message_role x)) (hm : Q (message_role m)) :
    ∀ x ∈ mergeStep acc m, Q (message_role x) := by
  intro x hx
  cases hl : acc.getLast? with
  | none =>
    simp only [mergeStep, hl] at hx
    rcases List.mem_append.mp hx with h | h
    · exact hacc x h
    · simp only [List.mem_singleton] at h; subst h; exact hm
  | some last =>
    cases hr : (message_role last == message_role m) with
    | true =>
      rw [mergeStep_same_role m hl hr] at hx
      rcases List.mem_append.mp hx with h | h
      · exact hacc x ((List.dropLast_prefix acc).subset h)
      · simp only [List.mem_singleton] at h
        subst h
        rw [message_role_merge_into]
        exact hacc last (List.mem_of_mem_getLast? hl)
    | false =>
      rw [mergeStep_push m hl hr] at hx
      rcases List.mem_append.mp hx with h | h
      · exact hacc x h
      · simp only [List.mem_singleton] at h; subst h; exact hm

theorem mem_foldl_mergeStep {J : Type} {Q : String → Prop} :
    ∀ (l acc : List (RequestMessage J)),
      (∀ x ∈ acc, Q (message_role x)) → (∀ x ∈ l, Q (message_role x)) →
      ∀ x ∈ l.foldl mergeStep acc, Q (message_role x) := by
  intro l
  induction l with
  | nil => intro acc hacc _ x hx; exact hacc x hx
  | cons m rest ih =>
    intro acc hacc hmem x hx
    rw [List.foldl_cons] at hx
    exact ih (mergeStep acc m)
      (mem_mergeStep acc m hacc (hmem m (by simp)))
      (fun y hy => hmem y (by simp [hy])) x hx

theorem mem_merge_consecutive_messages {J : Type} {Q : String → Prop}
    (l : List (RequestMessage J)) (hl : ∀ x ∈ l, Q (message_role x)) :
    ∀ x ∈ merge_consecutive_messages l, Q (message_role x) := by
  unfold merge_consecutive_messages
  split
  · exact hl
  · exact mem_foldl_mergeStep l [] (by simp) hl

theorem mem_buildStep_role {J : Type} (parseJson : String → Option J)
    (jobj : J) (msg : LLM.Message) :
    ∀ x ∈ (buildStep parseJson jobj msg).2,
      message_role x = "user" ∨ message_role x = "assistant" := by
  obtain ⟨role, content, tool_calls, tool_call_id⟩ := msg
  intro x hx
  cases role with
  | system =>
    cases content with
    | none => simp [buildStep] at hx
    | some c =>
      simp only [buildStep] at hx
      split at hx <;> simp at hx
  | user =>
    simp [buildStep] at hx
    subst hx; left; rfl
  | assistant =>
    cases tool_calls with
    | some tcs =>
      simp [buildStep] at hx
      subst hx; right; rfl
    | none =>
      simp [buildStep] at hx
      subst hx; right; rfl
  | tool =>
    cases tool_call_id with
    | some tid =>
      simp [buildStep] at hx
      subst hx; left; rfl
    | none => simp [buildStep] at hx

theorem mem_buildMessages_role {J : Type} (parseJson : String → Option J)
    (jobj : J) (msgs : List LLM.Message) :
    ∀ x ∈ (buildMessages parseJson jobj msgs).2,
      message_role x = "user" ∨ message_role x = "assistant" := by
  induction msgs with
  | nil => simp [buildMessages]
  | cons msg rest ih =>
    intro x hx
    unfold buildMessages at hx
    rcases List.mem_append.mp hx with h | h
    · exact mem_buildStep_role parseJson jobj msg x h
    · exact ih x h

end Anthropic

/-- Claim C4: for every neutral-model message list, the request produced by
the Anthropic adapter's to_request contains no two consecutive messages with
the same role; moreover (system messages having been lifted into the
separate system field) every remaining message has role "user" or
"assistant". -/
theorem C4_to_request_no_consecutive_same_role {J : Type}
    (parseJson : String → Option J) (jobj : J) (request : LLM.ChatRequest J)
    (stream : Option Bool) (oauth : Bool) :
    List.Chain'
      (fun a b => Anthropic.message_role a ≠ Anthropic.message_role b)
      (Anthropic.to_request parseJson jobj request stream oauth).messages ∧
    ∀ m ∈ (Anthropic.to_request parseJson jobj request stream oauth).messages,
      Anthropic.message_role m = "user" ∨
      Anthropic.message_role m = "assistant" := by
  constructor
  · exact Anthropic.chain'_merge_consecutive_messages _
  · exact Anthropic.mem_merge_consecutive_messages
      (Q := fun r => r = "user" ∨ r = "assistant") _
      (Anthropic.mem_buildMessages_role parseJson jobj request.messages)

/-- Claim C9: merge_consecutive_messages is idempotent — applying the merge
twice yields the same list as applying it once. -/
theorem C9_merge_consecutive_messages_idempotent {J : Type}
    (messages : List (Anthropic.RequestMessage J)) :
    Anthropic.merge_consecutive_messages
      (Anthropic.merge_consecutive_messages messages) =
    Anthropic.merge_consecutive_messages messages :=
  Anthropic.merge_of_chain' _
    (Anthropic.chain'_merge_consecutive_messages messages)

-- ===========================================================================
-- Theorems.  Tool executor: policy gate and bash-argument fallback.
-- ===========================================================================

theorem execute_eq_of_lookup (tools : List (String × Executor.ToolConfig))
    (check : Executor.ToolType → String → Executor.PolicyDecision)
    (parseCommand : String → Option String)
    (runTool : LLM.ToolCall → Executor.ToolConfig →
      Except Executor.ToolError Executor.ToolResult)
    (tc : LLM.ToolCall) (config : Executor.ToolConfig)
    (hlookup : Executor.lookupTool tools tc.function.name = some config) :
    Executor.execute tools check parseCommand runTool tc =
      match check (Executor.invocation_of parseCommand config tc).1
          (Executor.invocation_of parseCommand config tc).2 with
      | .deny => .err (.policyDenied
          (Executor.invocation_of parseCommand config tc).2)
      | .ask => .err (.approvalRequired tc.id
          (Executor.invocation_of parseCommand config tc).2)
      | .allow => .ran (Executor.invocation_of parseCommand config tc).1
          (Executor.invocation_of parseCommand config tc).2 (runTool tc config) := by
  simp only [Executor.execute, hlookup]

/-- Claim C6: for every tool call whose name is registered, execute checks
the policy before running anything and returns PolicyDenied on Deny,
ApprovalRequired carrying the call id and the invocation string on Ask, and
dispatches the tool exactly when the decision is Allow. -/
theorem C6_execute_policy_gate
    (tools : List (String × Executor.ToolConfig))
    (check : Executor.ToolType → String → Executor.PolicyDecision)
    (parseCommand : String → Option String)
    (runTool : LLM.ToolCall → Executor.ToolConfig →
      Except Executor.ToolError Executor.ToolResult)
    (tc : LLM.ToolCall) (config : Executor.ToolConfig)
    (hlookup : Executor.lookupTool tools tc.function.name = some config) :
    (check (Executor.invocation_of parseCommand config tc).1
        (Executor.invocation_of parseCommand config tc).2 = .deny →
      Executor.execute tools check parseCommand runTool tc =
        .err (.policyDenied (Executor.invocation_of parseCommand config tc).2)) ∧
    (check (Executor.invocation_of parseCommand config tc).1
        (Executor.invocation_of parseCommand config tc).2 = .ask →
      Executor.execute tools check parseCommand runTool tc =
        .err (.approvalRequired tc.id
          (Executor.invocation_of parseCommand config tc).2)) ∧
    (check (Executor.invocation_of parseCommand config tc).1
        (Executor.invocation_of parseCommand config tc).2 = .allow →
      Executor.execute tools check parseCommand runTool tc =
        .ran (Executor.invocation_of parseCommand config tc).1
          (Executor.invocation_of parseCommand config tc).2
          (runTool tc config)) ∧
    (∀ t inv r, Executor.execute tools check parseCommand runTool tc =
        .ran t inv r →
      check (Executor.invocation_of parseCommand config tc).1
        (Executor.invocation_of parseCommand config tc).2 = .allow) := by
  have hexec := execute_eq_of_lookup tools check parseCommand
    runTool tc config hlookup
  refine ⟨fun h => ?_, fun h => ?_, fun h => ?_, fun t inv r hr => ?_⟩
  · rw [hexec, h]
  · rw [hexec, h]
  · rw [hexec, h]
  · rw [hexec] at hr
    cases hd : check (Executor.invocation_of parseCommand config tc).1
        (Executor.invocation_of parseCommand config tc).2 <;>
      rw [hd] at hr <;> first | rfl | exact absurd hr (by simp)

/-- Witness for C6: with every invocation answered Ask, the bash call is
refused with ApprovalRequired carrying its call id and extracted command. -/
theorem C6_execute_policy_gate_witness :
    Executor.execute Fixtures.c6_tools Fixtures.c6_check Fixtures.c6_parse
      Fixtures.c6_run Fixtures.c6_call =
      .err (.approvalRequired "call_1" "ls") := by
  have h := (C6_execute_policy_gate Fixtures.c6_tools Fixtures.c6_check
    Fixtures.c6_parse Fixtures.c6_run Fixtures.c6_call
    (Executor.ToolConfig.builtin "bash") (by decide)).2.1 (by decide)
  exact h

/-- Claim C10: for a registered bash tool call whose arguments do not parse
as a JSON object with a string command field, execute does not fail on the
malformed arguments: the whole raw arguments string becomes the invocation
passed to the policy check and reported in ApprovalRequired. -/
theorem C10_bash_malformed_arguments_fallback
    (tools : List (String × Executor.ToolConfig))
    (check : Executor.ToolType → String → Executor.PolicyDecision)
    (parseCommand : String → Option String)
    (runTool : LLM.ToolCall → Executor.ToolConfig →
      Except Executor.ToolError Executor.ToolResult)
    (tc : LLM.ToolCall)
    (hlookup : Executor.lookupTool tools tc.function.name =
      some (.builtin "bash"))
    (hparse : parseCommand tc.function.arguments = none) :
    Executor.invocation_of parseCommand (.builtin "bash") tc =
      (.bash, tc.function.arguments) ∧
    (check .bash tc.function.arguments = .ask →
      Executor.execute tools check parseCommand runTool tc =
        .err (.approvalRequired tc.id tc.function.arguments)) ∧
    (check .bash tc.function.arguments = .deny →
      Executor.execute tools check parseCommand runTool tc =
        .err (.policyDenied tc.function.arguments)) ∧
    (check .bash tc.function.arguments = .allow →
      Executor.execute tools check parseCommand runTool tc =
        .ran .bash tc.function.arguments
          (runTool tc (.builtin "bash"))) := by
  have hinv : Executor.invocation_of parseCommand
      (Executor.ToolConfig.builtin "bash") tc = (.bash, tc.function.arguments) := by
    simp [Executor.invocation_of, Executor.extract_bash_command, hparse]
  have hgate := C6_execute_policy_gate tools check parseCommand runTool tc
    (.builtin "bash") hlookup
  rw [hinv] at hgate
  exact ⟨hinv, hgate.2.1, hgate.1, hgate.2.2.1⟩

/-- Witness for C10: malformed bash arguments flow verbatim into the
ApprovalRequired error. -/
theorem C10_bash_malformed_arguments_fallback_witness :
    Executor.execute Fixtures.c6_tools Fixtures.c6_check Fixtures.c10_parse
      Fixtures.c6_run Fixtures.c10_call =
      .err (.approvalRequired "call_2" "ls -la /tmp") := by
  have h := (C10_bash_malformed_arguments_fallback Fixtures.c6_tools
    Fixtures.c6_check Fixtures.c10_parse Fixtures.c6_run Fixtures.c10_call
    (by decide) (by decide)).2.1 (by decide)
  exact h

-- ===========================================================================
-- Theorems.  Process registry: terminal statuses are frozen.
-- ===========================================================================

/-- Claim C7: once a process entry is terminal, update_status (hence every
mark_*) is a no-op; every transition into a terminal status stamps
completed_at; and a kill() that set Killed first wins — the monitor's later
mark leaves the entry untouched. -/
theorem C7_terminal_status_frozen (entry : Registry.ProcessEntry)
    (status : Registry.ProcessStatus) (now : Nat) :
    (entry.meta.status.is_terminal = true →
      Registry.update_status entry status now = entry) ∧
    (entry.meta.status.is_terminal = false →
      (Registry.update_status entry status now).meta.status = status ∧
      (Registry.update_status entry status now).meta.completed_at = some now) ∧
    (∀ session_id killed txs,
      Registry.kill entry session_id now = .ok (killed, txs) →
      killed.meta.status = .killed ∧
      killed.meta.completed_at = some now ∧
      ∀ s t, Registry.update_status killed s t = killed) := by
  refine ⟨fun h => ?_, fun h => ?_, fun session_id killed txs h => ?_⟩
  · simp [Registry.update_status, h]
  · simp [Registry.update_status, h]
  · unfold Registry.kill at h
    split at h
    · exact absurd h (by simp)
    · split at h
      · exact absurd h (by simp)
      · simp only [Except.ok.injEq, Prod.mk.injEq] at h
        obtain ⟨hk, -⟩ := h
        subst hk
        refine ⟨rfl, rfl, fun s t => ?_⟩
        simp [Registry.update_status, Registry.ProcessStatus.is_terminal]

/-- Witness for C7: a concrete running entry is killed, and a later
mark_completed by the monitor does not overwrite the Killed status. -/
theorem C7_terminal_status_frozen_witness :
    Registry.kill Fixtures.c7_entry "sess-1" 200 =
      .ok ({ Fixtures.c7_entry with
             meta := { Fixtures.c7_entry.meta with
                       status := .killed, completed_at := some 200 },
             cancel_tx := none, watcher_cancel_tx := none },
           some (), some ()) ∧
    Registry.update_status
      { Fixtures.c7_entry with
        meta := { Fixtures.c7_entry.meta with
                  status := .killed, completed_at := some 200 },
        cancel_tx := none, watcher_cancel_tx := none }
      (.completed 0) 300 =
      { Fixtures.c7_entry with
        meta := { Fixtures.c7_entry.meta with
                  status := .killed, completed_at := some 200 },
        cancel_tx := none, watcher_cancel_tx := none } := by
  constructor
  · decide
  · exact ((C7_terminal_status_frozen
      { Fixtures.c7_entry with
        meta := { Fixtures.c7_entry.meta with
                  status := .killed, completed_at := some 200 },
        cancel_tx := none, watcher_cancel_tx := none }
      (.completed 0) 300).1 (by decide))

-- ===========================================================================
-- Theorems.  agnx loop: result ordering and the iteration bound.
-- ===========================================================================

/-- Claim C3: within one iteration, the recorded ToolCall/ToolResult event
pairs and the appended tool-result messages follow exactly the order of the
original tool-call list.  Parallel dispatch is join_all, which returns the
results aligned with the input order, so the processed results are
`tool_calls.map exec` no matter in which order the executions finished. -/
theorem C3_tool_events_follow_call_order {J : Type}
    (parseJson : String → Option J) (jnull : J) (tool_calls : List LLM.ToolCall)
    (exec : LLM.ToolCall → Except Executor.ToolError Executor.ToolResult) :
    (AgnxLoop.processResults parseJson jnull tool_calls
        (tool_calls.map exec)).1.filterMap AgnxLoop.evToolCallId =
      tool_calls.map LLM.ToolCall.id ∧
    (AgnxLoop.processResults parseJson jnull tool_calls
        (tool_calls.map exec)).1.filterMap AgnxLoop.evToolResultId =
      tool_calls.map LLM.ToolCall.id ∧
    (AgnxLoop.processResults parseJson jnull tool_calls
        (tool_calls.map exec)).2.map LLM.Message.tool_call_id =
      tool_calls.map (fun tc => some tc.id) := by
  induction tool_calls with
  | nil => simp [AgnxLoop.processResults]
  | cons tc rest ih =>
    obtain ⟨ih1, ih2, ih3⟩ := ih
    refine ⟨?_, ?_, ?_⟩ <;>
      simp [AgnxLoop.processResults, AgnxLoop.evToolCallId,
        AgnxLoop.evToolResultId, LLM.Message.tool_result, ih1, ih2, ih3]

theorem loopGo_llm_calls_le {J : Type} (parseJson : String → Option J)
    (jnull : J) (chat_stream : List LLM.Message → List LLM.StreamEvent)
    (exec : LLM.ToolCall → Except Executor.ToolError Executor.ToolResult)
    (max_iterations : Nat) :
    ∀ (remaining iterations tool_calls_made : Nat)
      (messages : List LLM.Message) (total_usage : Option LLM.Usage)
      (events : List (AgnxLoop.SessionEventPayload J)) (llm_calls : Nat),
      (AgnxLoop.loopGo parseJson jnull chat_stream exec max_iterations
        remaining iterations tool_calls_made messages total_usage events
        llm_calls).llm_calls ≤ llm_calls + remaining := by
  intro remaining
  induction remaining with
  | zero =>
    intro iterations tool_calls_made messages total_usage events llm_calls
    simp [AgnxLoop.loopGo]
  | succ n ih =>
    intro iterations tool_calls_made messages total_usage events llm_calls
    rw [AgnxLoop.loopGo]
    split
    · simp
    · exact le_trans (ih _ _ _ _ _ _) (by omega)

theorem loopGo_all_tools_exceeds {J : Type} (parseJson : String → Option J)
    (jnull : J) (chat_stream : List LLM.Message → List LLM.StreamEvent)
    (exec : LLM.ToolCall → Except Executor.ToolError Executor.ToolResult)
    (max_iterations : Nat)
    (hall : ∀ messages, (AgnxLoop.consumeStream (chat_stream messages)
      ⟨"", [], none⟩).tool_calls ≠ []) :
    ∀ (remaining iterations tool_calls_made : Nat)
      (messages : List LLM.Message) (total_usage : Option LLM.Usage)
      (events : List (AgnxLoop.SessionEventPayload J)) (llm_calls : Nat),
      (AgnxLoop.loopGo parseJson jnull chat_stream exec max_iterations
          remaining iterations tool_calls_made messages total_usage events
          llm_calls).outcome =
        .maxIterationsExceeded max_iterations ∧
      (AgnxLoop.loopGo parseJson jnull chat_stream exec max_iterations
          remaining iterations tool_calls_made messages total_usage events
          llm_calls).llm_calls = llm_calls + remaining := by
  intro remaining
  induction remaining with
  | zero =>
    intro iterations tool_calls_made messages total_usage events llm_calls
    simp [AgnxLoop.loopGo]
  | succ n ih =>
    intro iterations tool_calls_made messages total_usage events llm_calls
    rw [AgnxLoop.loopGo]
    have hne := hall messages
    have hemp : (AgnxLoop.consumeStream (chat_stream messages)
        ⟨"", [], none⟩).tool_calls.isEmpty = false := by
      cases h : (AgnxLoop.consumeStream (chat_stream messages)
          ⟨"", [], none⟩).tool_calls with
      | nil => exact absurd h hne
      | cons a l => rfl
    rw [if_neg (by simp [hemp])]
    obtain ⟨h1, h2⟩ := ih (iterations + 1) _ _ _ _ (llm_calls + 1)
    exact ⟨h1, by rw [h2]; omega⟩

/-- Claim C5: the agnx agentic loop performs at most max_iterations LLM
calls, and when every one of the first max_iterations iterations yields a
non-empty tool-call list it terminates with MaxIterationsExceeded
(max_iterations) — after exactly max_iterations LLM calls, making no
further one.  (The embedding is a total function, so termination for finite
max_iterations holds by construction.) -/
theorem C5_max_iterations_bound {J : Type} (parseJson : String → Option J)
    (jnull : J) (chat_stream : List LLM.Message → List LLM.StreamEvent)
    (exec : LLM.ToolCall → Except Executor.ToolError Executor.ToolResult)
    (max_iterations : Nat) (initial_messages : List LLM.Message) :
    (AgnxLoop.run_agentic_loop parseJson jnull chat_stream exec
        max_iterations initial_messages).llm_calls ≤ max_iterations ∧
    ((∀ messages, (AgnxLoop.consumeStream (chat_stream messages)
        ⟨"", [], none⟩).tool_calls ≠ []) →
      (AgnxLoop.run_agentic_loop parseJson jnull chat_stream exec
          max_iterations initial_messages).outcome =
        .maxIterationsExceeded max_iterations ∧
      (AgnxLoop.run_agentic_loop parseJson jnull chat_stream exec
          max_iterations initial_messages).llm_calls = max_iterations) := by
  constructor
  · have h := loopGo_llm_calls_le parseJson jnull chat_stream exec
      max_iterations max_iterations 0 0 initial_messages none [] 0
    simpa [AgnxLoop.run_agentic_loop] using h
  · intro hall
    have h := loopGo_all_tools_exceeds parseJson jnull chat_stream exec
      max_iterations hall max_iterations 0 0 initial_messages none [] 0
    simpa [AgnxLoop.run_agentic_loop] using h

/-- Witness for C5: a provider that always requests a tool call makes the
loop stop with MaxIterationsExceeded 2 after exactly 2 LLM calls. -/
theorem C5_max_iterations_bound_witness :
    (AgnxLoop.run_agentic_loop (J := Unit) (fun _ => none) ()
        Fixtures.c5_stream Fixtures.c5_exec 2 []).outcome =
      AgnxLoop.AgenticOutcome.maxIterationsExceeded 2 ∧
    (AgnxLoop.run_agentic_loop (J := Unit) (fun _ => none) ()
        Fixtures.c5_stream Fixtures.c5_exec 2 []).llm_calls = 2 :=
  (C5_max_iterations_bound (J := Unit) (fun _ => none) () Fixtures.c5_stream
    Fixtures.c5_exec 2 []).2 (fun _ => by simp only [Fixtures.c5_stream]; decide)

-- ===========================================================================
-- Theorems.  Duragent loop: approval suspension.
-- ===========================================================================

theorem dur_round_awaits {J : Type} (parseJson : String → Option J) (jnull : J)
    (content : String)
    (exec : LLM.ToolCall → Except DurLoop.DToolError Executor.ToolResult) :
    ∀ (tool_calls : List LLM.ToolCall) (st : DurLoop.DSessionState J),
      (∃ tc ∈ tool_calls, DurLoop.isApprovalErr (exec tc) = true) →
      ∃ pending st',
        DurLoop.dur_process_round parseJson jnull content tool_calls
            (tool_calls.map exec) st =
          (.awaitingApproval pending content, st') ∧
        st'.pending_approval = some pending := by
  intro tool_calls
  induction tool_calls with
  | nil => intro st h; simp at h
  | cons tc rest ih =>
    intro st h
    cases hx : exec tc with
    | ok r =>
      have hrest : ∃ tc ∈ rest, DurLoop.isApprovalErr (exec tc) = true := by
        rcases h with ⟨tc', hmem, happ⟩
        rcases List.mem_cons.mp hmem with heq | hmem'
        · subst heq; rw [hx] at happ; simp [DurLoop.isApprovalErr] at happ
        · exact ⟨tc', hmem', happ⟩
      obtain ⟨pending, st', hr, hp⟩ := ih _ hrest
      refine ⟨pending, st', ?_, hp⟩
      simp only [List.map_cons, DurLoop.dur_process_round, hx]
      exact hr
    | error e =>
      cases e with
      | approvalRequired call_id command =>
        simp only [List.map_cons, DurLoop.dur_process_round, hx]
        exact ⟨⟨call_id, command⟩, _, rfl, rfl⟩
      | other msg =>
        have hrest : ∃ tc ∈ rest, DurLoop.isApprovalErr (exec tc) = true := by
          rcases h with ⟨tc', hmem, happ⟩
          rcases List.mem_cons.mp hmem with heq | hmem'
          · subst heq; rw [hx] at happ; simp [DurLoop.isApprovalErr] at happ
          · exact ⟨tc', hmem', happ⟩
        obtain ⟨pending, st', hr, hp⟩ := ih _ hrest
        refine ⟨pending, st', ?_, hp⟩
        simp only [List.map_cons, DurLoop.dur_process_round, hx]
        exact hr

/-- Claim C1: for every loop iteration in which the executor returns
ApprovalRequired for some tool call, the duragent agentic loop persists a
pending-approval record and returns AwaitingApproval whose partial content
equals the assistant content accumulated in that iteration, instead of
continuing to the next iteration.  Every iteration is an invocation of
dur_run on the current session state, so quantifying over the state covers
every iteration. -/
theorem C1_approval_suspends_loop {J : Type} (parseJson : String → Option J)
    (jnull : J) (step : List LLM.Message → DurLoop.DResponse)
    (exec : LLM.ToolCall → Except DurLoop.DToolError Executor.ToolResult)
    (fuel : Nat) (st : DurLoop.DSessionState J)
    (hcalls : (step st.messages).tool_calls ≠ [])
    (happ : ∃ tc ∈ (step st.messages).tool_calls,
      DurLoop.isApprovalErr (exec tc) = true) :
    ∃ pending st',
      DurLoop.dur_run parseJson jnull step exec (fuel + 1) st =
        (.awaitingApproval pending (step st.messages).content, st') ∧
      st'.pending_approval = some pending := by
  have hemp : (step st.messages).tool_calls.isEmpty = false := by
    cases h : (step st.messages).tool_calls with
    | nil => exact absurd h hcalls
    | cons a l => rfl
  obtain ⟨pending, st', hr, hp⟩ :=
    dur_round_awaits parseJson jnull (step st.messages).content exec
      (step st.messages).tool_calls
      { st with messages :=
          st.messages ++ [DurLoop.dur_assistant (step st.messages)] }
      happ
  refine ⟨pending, st', ?_, hp⟩
  rw [DurLoop.dur_run]
  rw [if_neg (by simp [hemp])]
  rw [hr]

/-- Witness for C1: the concrete executor raising ApprovalRequired makes the
loop return AwaitingApproval with the iteration's content, with the pending
approval persisted in the session state. -/
theorem C1_approval_suspends_loop_witness :
    ∃ pending st',
      DurLoop.dur_run (J := Unit) (fun _ => none) () Fixtures.c1_step
          Fixtures.c1_exec 3 Fixtures.c1_state =
        (.awaitingApproval pending "Running the command...", st') ∧
      st'.pending_approval = some pending := by
  have h := C1_approval_suspends_loop (J := Unit) (fun _ => none) ()
    Fixtures.c1_step Fixtures.c1_exec 2 Fixtures.c1_state
    (by simp only [Fixtures.c1_step]; decide)
    ⟨Fixtures.c1_call, by simp only [Fixtures.c1_step]; decide,
      by decide⟩
  exact h

-- ===========================================================================
-- Theorems.  OpenAI-style stream parser: tokens and Done only.
-- ===========================================================================

theorem run_lines_all_token_or_done
    (parseChunk : List Char → Option OpenAIRoot.StreamChunk)
    (leftoverEmpty : Bool) :
    ∀ lines, (OpenAIRoot.run_lines parseChunk leftoverEmpty lines).all
      OpenAIRoot.isTokenOrPlainDone = true := by
  intro lines
  induction lines with
  | nil =>
    cases leftoverEmpty <;>
      simp [OpenAIRoot.run_lines, OpenAIRoot.isTokenOrPlainDone]
  | cons line rest ih =>
    rw [OpenAIRoot.run_lines]
    cases h : OpenAIRoot.process_line parseChunk line <;>
      simp [OpenAIRoot.isTokenOrPlainDone, ih]

/-- Amended claim C2: the stream parser of src/src/llm/openai.rs yields only
Token events (for non-empty content deltas) and a usage-free Done event; it
performs no tool-call accumulation and never emits a ToolCalls event, even
when the SSE stream carries tool-call fragments and ends with
`data: [DONE]`. -/
theorem C2_parser_emits_tokens_and_done_only
    (parseChunk : List Char → Option OpenAIRoot.StreamChunk)
    (chunks : List String) :
    (OpenAIRoot.run_sse_stream parseChunk chunks).all
      OpenAIRoot.isTokenOrPlainDone = true ∧
    (OpenAIRoot.run_sse_stream parseChunk chunks).all
      (fun e => !OpenAIRoot.isToolCallsEvent e) = true := by
  have h1 : (OpenAIRoot.run_sse_stream parseChunk chunks).all
      OpenAIRoot.isTokenOrPlainDone = true := by
    unfold OpenAIRoot.run_sse_stream
    exact run_lines_all_token_or_done parseChunk _ _
  refine ⟨h1, ?_⟩
  rw [List.all_eq_true] at h1 ⊢
  intro e he
  have := h1 e he
  cases e with
  | token s => rfl
  | toolCalls l => simp [OpenAIRoot.isTokenOrPlainDone] at this
  | done u => rfl
  | cancelled => simp [OpenAIRoot.isTokenOrPlainDone] at this

/-- Counterexample for claim C2 as stated: on a stream carrying a tool-call
fragment and terminating with `data: [DONE]`, the parser yields only
`Done{usage: None}` — no ToolCalls event precedes it, because the parser
accumulates nothing and `StreamDelta` has no tool_calls field. -/
theorem C2_counterexample :
    OpenAIRoot.run_sse_stream OpenAIRoot.c2_parse OpenAIRoot.c2_chunks =
      [LLM.StreamEvent.done none] ∧
    (OpenAIRoot.run_sse_stream OpenAIRoot.c2_parse
        OpenAIRoot.c2_chunks).any OpenAIRoot.isToolCallsEvent = false := by
  constructor
  · decide
  · decide

-- ===========================================================================
-- Theorems.  Hook pattern matching versus the glob language.
-- ===========================================================================

namespace Hooks

theorem startsWithL_iff : ∀ (p s : List Char), startsWithL p s = true ↔ p <+: s := by
  intro p
  induction p with
  | nil => intro s; simp [startsWithL]
  | cons a ps ih =>
    intro s
    cases s with
    | nil => simp [startsWithL]
    | cons b t => simp [startsWithL, List.cons_prefix_cons, ih]

theorem startsWithL_append (p s : List Char) : startsWithL p (p ++ s) = true :=
  (startsWithL_iff p (p ++ s)).mpr ⟨s, rfl⟩

theorem endsWithL_iff (p s : List Char) : endsWithL p s = true ↔ p <:+ s := by
  unfold endsWithL
  rw [startsWithL_iff]
  exact List.reverse_prefix

theorem findSub_self_append (p s : List Char) : findSub p (p ++ s) = some 0 := by
  cases hps : p ++ s with
  | nil =>
    obtain ⟨hp, hs⟩ := List.append_eq_nil.mp hps
    subst hp; subst hs
    simp [findSub]
  | cons c t =>
    have hsw : startsWithL p (c :: t) = true := by
      rw [← hps]; exact startsWithL_append p s
    simp [findSub, hsw]

theorem findSub_of_occurrence :
    ∀ (g p s : List Char), ∃ i, findSub p (g ++ p ++ s) = some i ∧ i ≤ g.length := by
  intro g
  induction g with
  | nil =>
    intro p s
    exact ⟨0, by simpa using findSub_self_append p s, by simp⟩
  | cons c g ih =>
    intro p s
    by_cases hsw : startsWithL p (c :: (g ++ p ++ s)) = true
    · refine ⟨0, ?_, by simp⟩
      simp only [List.cons_append, findSub, List.append_eq]
      rw [if_pos hsw]
    · obtain ⟨i, hf, hle⟩ := ih p s
      refine ⟨i + 1, ?_, by simpa using Nat.succ_le_succ hle⟩
      simp only [List.cons_append, findSub, List.append_eq]
      rw [if_neg hsw, hf]
      rfl

theorem inOrder_append (w : List Char) {ps : List (List Char)} {s : List Char}
    (h : InOrder ps s) : InOrder ps (w ++ s) := by
  cases h with
  | nil => exact .nil _
  | @cons p ps g s0 h' =>
    have := @InOrder.cons p ps (w ++ g) s0 h'
    simpa [List.append_assoc] using this

theorem matchMiddleParts_of_inOrder :
    ∀ (ps : List (List Char)) (rem : List Char),
      InOrder ps rem → matchMiddleParts ps rem = true := by
  intro ps
  induction ps with
  | nil => intro rem _; rfl
  | cons p ps ih =>
    intro rem h
    cases h with
    | @cons _ _ g s h' =>
      cases hpe : p.isEmpty with
      | true =>
        have hp : p = [] := List.isEmpty_iff.mp hpe
        subst hp
        simp only [matchMiddleParts, List.isEmpty_nil, if_true]
        exact ih _ (by simpa using inOrder_append g h')
      | false =>
        obtain ⟨i, hf, hle⟩ := findSub_of_occurrence g p s
        simp only [matchMiddleParts, hpe, Bool.false_eq_true, if_false, hf]
        have hk : i + p.length ≤ (g ++ p).length := by
          simp only [List.length_append]; omega
        rw [List.drop_append_of_le_length hk]
        exact ih _ (inOrder_append _ h')

theorem splitOnStar_ne_nil (l : List Char) : splitOnStar l ≠ [] := by
  cases l with
  | nil => simp [splitOnStar]
  | cons c rest =>
    rw [splitOnStar]
    split
    · simp
    · split <;> simp

theorem globParts_ne_nil {ps : List (List Char)} {s : List Char}
    (h : GlobParts ps s) : ps ≠ [] := by
  cases h <;> simp

theorem globParts_of_globLang {pat inv : List Char} (h : GlobLang pat inv) :
    GlobParts (splitOnStar pat) inv := by
  induction h with
  | nil => exact GlobParts.single
  | @star p s r h ih =>
    rw [show splitOnStar ('*' :: p) = [] :: splitOnStar p from by
      simp [splitOnStar]]
    exact GlobParts.cons s ih
  | @lit c p s hc h ih =>
    cases hsp : splitOnStar p with
    | nil => exact absurd hsp (splitOnStar_ne_nil p)
    | cons q qs =>
      have hcp : splitOnStar (c :: p) = (c :: q) :: qs := by
        rw [splitOnStar, if_neg hc, hsp]
      rw [hcp]
      rw [hsp] at ih
      cases ih with
      | single => exact GlobParts.single
      | cons g h2 => exact GlobParts.cons g h2

theorem globParts_lastPart_suffix :
    ∀ {ps : List (List Char)} {s : List Char}, GlobParts ps s → lastPart ps <:+ s := by
  intro ps
  induction ps with
  | nil => intro s h; cases h
  | cons p ps ih =>
    intro s h
    cases h with
    | single => simp [lastPart]
    | @cons _ _ g s2 h' =>
      cases ps with
      | nil => cases h'
      | cons q qs =>
        show lastPart (q :: qs) <:+ p ++ g ++ s2
        exact (ih h').trans (List.suffix_append (p ++ g) s2)

theorem globParts_dropLast_inOrder :
    ∀ {ps : List (List Char)} {s : List Char},
      GlobParts ps s → InOrder ps.dropLast s := by
  intro ps
  induction ps with
  | nil => intro s h; cases h
  | cons p ps ih =>
    intro s h
    cases h with
    | single => exact InOrder.nil p
    | @cons _ _ g s2 h' =>
      cases ps with
      | nil => cases h'
      | cons q qs =>
        show InOrder (p :: (q :: qs).dropLast) (p ++ g ++ s2)
        have hrest : InOrder (q :: qs).dropLast (g ++ s2) :=
          inOrder_append g (ih h')
        have := @InOrder.cons p (q :: qs).dropLast [] (g ++ s2) hrest
        simpa [List.append_assoc] using this

theorem two_le_splitOnStar : ∀ {pat : List Char},
    '*' ∈ pat → 2 ≤ (splitOnStar pat).length := by
  intro pat
  induction pat with
  | nil => intro h; cases h
  | cons c rest ih =>
    intro h
    rw [splitOnStar]
    by_cases hc : c = '*'
    · rw [if_pos hc]
      have h1 : 0 < (splitOnStar rest).length :=
        List.length_pos.mpr (splitOnStar_ne_nil rest)
      simp only [List.length_cons]
      omega
    · rw [if_neg hc]
      have hmem : '*' ∈ rest := by
        rcases List.mem_cons.mp h with h1 | h1
        · exact absurd h1.symm hc
        · exact h1
      have h2 := ih hmem
      cases hsp : splitOnStar rest with
      | nil => exact absurd hsp (splitOnStar_ne_nil rest)
      | cons q qs =>
        rw [hsp] at h2
        simp only [List.length_cons] at h2 ⊢
        omega

theorem globLang_eq_of_no_star {pat inv : List Char} (h : GlobLang pat inv) :
    '*' ∉ pat → pat = inv := by
  induction h with
  | nil => intro _; rfl
  | @star p s r h ih =>
    intro hns
    exact absurd (List.mem_cons_self _ _) hns
  | @lit c p s hc h ih =>
    intro hns
    have h2 : '*' ∉ p := fun hm => hns (List.mem_cons_of_mem _ hm)
    rw [ih h2]

theorem globLang_refl_of_no_star : ∀ {pat : List Char},
    '*' ∉ pat → GlobLang pat pat := by
  intro pat
  induction pat with
  | nil => intro _; exact .nil
  | cons c rest ih =>
    intro h
    have hc : c ≠ '*' := fun he => h (he ▸ List.mem_cons_self c rest)
    exact .lit hc (ih fun hm => h (List.mem_cons_of_mem _ hm))

theorem globLang_nonstar_length_le {pat inv : List Char} (h : GlobLang pat inv) :
    (pat.filter (fun c => !(c == '*'))).length ≤ inv.length := by
  induction h with
  | nil => simp
  | @star p s r h ih =>
    have hf : ('*' :: p).filter (fun c => !(c == '*')) =
        p.filter (fun c => !(c == '*')) := by simp
    rw [hf, List.length_append]
    omega
  | @lit c p s hc h ih =>
    have hf : (c :: p).filter (fun c => !(c == '*')) =
        c :: p.filter (fun c => !(c == '*')) := by simp [hc]
    rw [hf]
    simp only [List.length_cons]
    omega

theorem matches_no_star (pattern invocation : List Char)
    (hc : pattern.contains '*' = false) :
    matches_hook_pattern pattern invocation = (pattern == invocation) := by
  unfold matches_hook_pattern
  rw [hc]
  simp

theorem matches_star_branch (pattern invocation : List Char)
    (hc : pattern.contains '*' = true) :
    matches_hook_pattern pattern invocation =
      (let parts := splitOnStar pattern
       let first := parts.headD []
       if !first.isEmpty && !(startsWithL first invocation) then false
       else
         let last := lastPart parts
         if !last.isEmpty && !(endsWithL last invocation) then false
         else matchMiddleParts ((parts.drop 1).dropLast)
           (invocation.drop first.length)) := by
  unfold matches_hook_pattern
  rw [hc]
  simp

end Hooks

/-- Amended claim C8: matches_hook_pattern accepts every invocation in the
language of the pattern (each `*` denoting any, possibly empty, substring
and all other characters matching verbatim), and for a pattern containing
no `*` it returns true exactly when pattern and invocation are equal; with
`*` present it can additionally accept strings outside the glob language,
because the trailing literal chunk is only checked with ends_with and may
overlap the part of the invocation already consumed (see the
counterexample). -/
theorem C8_matches_hook_pattern_glob (pattern invocation : List Char) :
    (Hooks.GlobLang pattern invocation →
      Hooks.matches_hook_pattern pattern invocation = true) ∧
    ('*' ∉ pattern →
      (Hooks.matches_hook_pattern pattern invocation = true ↔
        pattern = invocation)) := by
  constructor
  · intro hg
    by_cases hstar : '*' ∈ pattern
    case neg =>
      have heq := Hooks.globLang_eq_of_no_star hg hstar
      subst heq
      have hc : pattern.contains '*' = false := by simp [hstar]
      rw [Hooks.matches_no_star pattern pattern hc]
      simp
    case pos =>
      have hc : pattern.contains '*' = true := by simpa using hstar
      rcases hsp : Hooks.splitOnStar pattern with _ | ⟨first, rest⟩
      · exact absurd hsp (Hooks.splitOnStar_ne_nil pattern)
      have hg2 := Hooks.globParts_of_globLang hg
      rw [hsp] at hg2
      have hlen := Hooks.two_le_splitOnStar hstar
      rw [hsp] at hlen
      cases hg2 with
      | single => simp at hlen
      | @cons _ _ g s2 h' =>
        have hrne : rest ≠ [] := Hooks.globParts_ne_nil h'
        have hsw : Hooks.startsWithL first (first ++ (g ++ s2)) = true :=
          Hooks.startsWithL_append first (g ++ s2)
        have hlast : Hooks.lastPart (first :: rest) <:+ first ++ g ++ s2 := by
          cases rest with
          | nil => exact absurd rfl hrne
          | cons q qs =>
            show Hooks.lastPart (q :: qs) <:+ first ++ g ++ s2
            exact (Hooks.globParts_lastPart_suffix h').trans
              (List.suffix_append (first ++ g) s2)
        have hew : Hooks.endsWithL (Hooks.lastPart (first :: rest))
            (first ++ (g ++ s2)) = true := by
          rw [← List.append_assoc]
          exact (Hooks.endsWithL_iff _ _).mpr hlast
        have hmid : Hooks.matchMiddleParts rest.dropLast
            ((first ++ g ++ s2).drop first.length) = true := by
          rw [List.append_assoc, List.drop_left]
          exact Hooks.matchMiddleParts_of_inOrder _ _
            (Hooks.inOrder_append g (Hooks.globParts_dropLast_inOrder h'))
        rw [Hooks.matches_star_branch pattern _ hc]
        simp only [hsp, List.headD_cons]
        rw [if_neg (by simp [hsw])]
        rw [if_neg (by simp [hew])]
        simpa using hmid
  · intro hns
    have hc : pattern.contains '*' = false := by simp [hns]
    rw [Hooks.matches_no_star pattern invocation hc, beq_iff_eq]

/-- Witness for C8 (amended): the theorem applied to "b*" / "bx" (a member
of the glob language) and to the star-free pattern "ab". -/
theorem C8_matches_hook_pattern_glob_witness :
    Hooks.matches_hook_pattern "b*".toList "bx".toList = true ∧
    (Hooks.matches_hook_pattern "ab".toList "ab".toList = true ↔
      "ab".toList = "ab".toList) :=
  ⟨(C8_matches_hook_pattern_glob "b*".toList "bx".toList).1
      (Hooks.GlobLang.lit (by decide)
        (Hooks.GlobLang.star ['x'] Hooks.GlobLang.nil)),
   (C8_matches_hook_pattern_glob "ab".toList "ab".toList).2 (by decide)⟩

/-- Counterexample for claim C8 as stated: the pattern "a*a" matches the
invocation "a" even though "a" is not in the glob language of "a*a" (any
member has at least two characters): the ends_with check of the last chunk
overlaps the prefix already consumed by the first chunk. -/
theorem C8_counterexample :
    Hooks.matches_hook_pattern "a*a".toList "a".toList = true ∧
    ¬ Hooks.GlobLang "a*a".toList "a".toList := by
  refine ⟨by decide, fun h => ?_⟩
  exact absurd (Hooks.globLang_nonstar_length_le h) (by decide)
